import Mathlib

/-!
Verification of the grid partitioner and bounding-box extractor of
`src/main.py` (Microsoft building-footprint chunking tool).

The embedding uses exact rational arithmetic (`ℚ`) in place of IEEE floats.
Geometries are modelled as finite point sets (multipoints): for a multipoint
and an axis-aligned box, shapely's `intersects` is exactly "some point lies
in the closed box", which is the semantics used below for both the
partitioner's per-cell feature test and the extractor's narrow phase.
`np.arange(start, stop, step)` is modelled by its documented semantics:
`max 0 ⌈(stop - start) / step⌉` elements `start + i * step`, and a
`ZeroDivisionError` (modelled as `none`) when `step = 0`.
-/

namespace Footprints

/-- An axis-aligned bounding box `(x_min, y_min, x_max, y_max)`, the shape of
`total_bounds`, of `shapely.box` arguments and of the per-chunk metadata
records written by `divide_data` (src/main.py lines 84-89). -/
structure BBox where
  x_min : ℚ
  y_min : ℚ
  x_max : ℚ
  y_max : ℚ
deriving DecidableEq, Repr

/-- The data-model invariant on a bounding box: `x_min ≤ x_max` and
`y_min ≤ y_max`. -/
def wellOrdered (b : BBox) : Prop :=
  b.x_min ≤ b.x_max ∧ b.y_min ≤ b.y_max

instance (b : BBox) : Decidable (wellOrdered b) :=
  inferInstanceAs (Decidable (_ ∧ _))

/-- Membership of a point in the closed box. -/
def inBBox (b : BBox) (p : ℚ × ℚ) : Prop :=
  b.x_min ≤ p.1 ∧ p.1 ≤ b.x_max ∧ b.y_min ≤ p.2 ∧ p.2 ≤ b.y_max

instance (b : BBox) (p : ℚ × ℚ) : Decidable (inBBox b p) :=
  inferInstanceAs (Decidable (_ ∧ _ ∧ _ ∧ _))

/-- Model of `shapely.box(a).intersects(shapely.box(b))` for well-ordered boxes:
closed-interval overlap on both axes (touching boundaries do intersect). -/
def rectIntersects (a b : BBox) : Bool :=
  decide (a.x_min ≤ b.x_max) && decide (b.x_min ≤ a.x_max) &&
  decide (a.y_min ≤ b.y_max) && decide (b.y_min ≤ a.y_max)

/-- One row of the source GeoDataFrame: a geometry (finite point set) and the
string-valued `properties` column. `json.loads` of that string is modelled by
its outcome: `none` for a `json.JSONDecodeError`, `some d` for a string that
decodes to the key/value object `d`. -/
structure Feature where
  geom : List (ℚ × ℚ)
  props : Option (List (String × String))
deriving DecidableEq, Repr

/-- Model of `geometry.intersects(box)` for a multipoint geometry: some point of the
geometry lies in the closed box. -/
def geomIntersects (geom : List (ℚ × ℚ)) (b : BBox) : Bool :=
  geom.any (fun p => decide (inBBox b p))

/-- Model of `gdf.intersects(cell)` applied to one row (src/main.py line 78 and
line 157). -/
def featIntersects (f : Feature) (b : BBox) : Bool :=
  geomIntersects f.geom b

/-- Model of `combined_gdf.total_bounds` (src/main.py line 51): the smallest box
containing every point of every geometry. The empty case (numpy would give
NaN bounds) is given an arbitrary value and is excluded by hypothesis
wherever it matters. -/
def totalBounds (gdf : List Feature) : BBox :=
  match gdf.flatMap (fun f => f.geom) with
  | [] => ⟨0, 0, 0, 0⟩
  | p :: ps =>
      ⟨ps.foldl (fun a q => min a q.1) p.1,
       ps.foldl (fun a q => min a q.2) p.2,
       ps.foldl (fun a q => max a q.1) p.1,
       ps.foldl (fun a q => max a q.2) p.2⟩

/-- Number of elements of `np.arange(start, stop, step)` for `step ≠ 0`:
`max 0 ⌈(stop - start) / step⌉`. -/
def arangeLen (start stop step : ℚ) : ℕ :=
  (Int.ceil ((stop - start) / step)).toNat

/-- The elements of `np.arange(start, stop, step)` for `step ≠ 0`. -/
def arangeList (start stop step : ℚ) : List ℚ :=
  (List.range (arangeLen start stop step)).map (fun i : ℕ => start + (i : ℚ) * step)

/-- Characterisation of `grid_size = math.sqrt(area / 100)` (src/main.py lines 64-68) with
`area = (x_max - x_min) * (y_max - y_min)`, characterised exactly: `g` is the
nonnegative square root of `area / 100`. The literal `100` is the
target chunk count of the source. -/
def isCellSide (b : BBox) (g : ℚ) : Prop :=
  0 ≤ g ∧ g * g = (b.x_max - b.x_min) * (b.y_max - b.y_min) / 100

instance (b : BBox) (g : ℚ) : Decidable (isCellSide b g) :=
  inferInstanceAs (Decidable (_ ∧ _))

/-- The clipped cell rectangle
`box(x, y, min(x + grid_size, x_max), min(y + grid_size, y_max))`
(src/main.py line 77). -/
def cellAt (b : BBox) (g : ℚ) (x y : ℚ) : BBox :=
  ⟨x, y, min (x + g) b.x_max, min (y + g) b.y_max⟩

/-- The nested `for x in x_ranges: for y in y_ranges:` iteration order
(src/main.py lines 75-76). -/
def gridPairs (xs ys : List ℚ) : List (ℚ × ℚ) :=
  xs.flatMap (fun x => ys.map (fun y => (x, y)))

/-- All clipped grid cell rectangles of `divide_data`. -/
def gridCells (b : BBox) (g : ℚ) : List BBox :=
  (gridPairs (arangeList b.x_min b.x_max g) (arangeList b.y_min b.y_max g)).map
    (fun q => cellAt b g q.1 q.2)

/-- One persisted chunk of `divide_data`: its identity (the cell origin
`(x, y)`, from which the output filename `location_x_y.geojson` is derived),
the cell rectangle recorded for it in metadata, and the features written to
its file. -/
structure Chunk where
  key : ℚ × ℚ
  rect : BBox
  feats : List Feature
deriving DecidableEq, Repr

/-- The chunk-producing loop body of `divide_data` (src/main.py lines 75-89):
for every grid cell, filter the collection to the features intersecting the
clipped cell rectangle and keep the cell only if that subset is non-empty. -/
def chunkList (gdf : List Feature) (b : BBox) (g : ℚ) : List Chunk :=
  (gridPairs (arangeList b.x_min b.x_max g) (arangeList b.y_min b.y_max g)).filterMap
    (fun p =>
      let sub := gdf.filter (fun f => featIntersects f (cellAt b g p.1 p.2))
      if sub.isEmpty then none else some ⟨p, cellAt b g p.1 p.2, sub⟩)

/-- Model of `divide_data(gdf, output_folder, location, bounds)` (src/main.py
lines 59-93) with `grid_size = g`. When `g = 0` (zero-area bounding box),
`np.arange(x_min, x_max, 0)` raises `ZeroDivisionError`, modelled as `none`;
otherwise the function returns the persisted chunks in loop order. -/
def divide_data (gdf : List Feature) (b : BBox) (g : ℚ) : Option (List Chunk) :=
  if g = 0 then none else some (chunkList gdf b g)

/-- The metadata object written at src/main.py lines 83-93: each persisted
chunk's identifier mapped to its cell rectangle, in insertion order. -/
def chunkMeta (cs : List Chunk) : List ((ℚ × ℚ) × BBox) :=
  cs.map (fun c => (c.key, c.rect))

/-- The chunk files on disk after `divide_data`: each chunk's identifier
mapped to its feature list. -/
def chunkStorage (cs : List Chunk) : List ((ℚ × ℚ) × List Feature) :=
  cs.map (fun c => (c.key, c.feats))

/-- Association-list lookup, first match wins (chunk identifiers name
distinct files, so at most one entry per key exists in practice). -/
def alistGet {β : Type} (k : ℚ × ℚ) : List ((ℚ × ℚ) × β) → Option β
  | [] => none
  | e :: rest => if e.1 = k then some e.2 else alistGet k rest

/-- One output feature of `extract_data`: geometry plus the assembled
properties dict, represented as the insertion sequence of a Python dict
(later entries override earlier ones on lookup). -/
structure OutFeature where
  geom : List (ℚ × ℚ)
  properties : List (String × String)
deriving DecidableEq, Repr

/-- Lookup in the insertion sequence of a Python dict: the last inserted
value for the key wins, as with `d[k] = v` overriding earlier insertions. -/
def dictGet (l : List (String × String)) (k : String) : Option String :=
  match l with
  | [] => none
  | kv :: rest =>
      match dictGet rest k with
      | some v => some v
      | none => if kv.1 = k then some kv.2 else none

/-- Assembly of one output feature (src/main.py lines 158-170): properties
start as `{"type": "Feature"}` and are then `update`d with the decoded
payload; a `json.JSONDecodeError` (payload `none`) skips the feature. -/
def buildFeature (f : Feature) : Option OutFeature :=
  match f.props with
  | none => none
  | some d => some ⟨f.geom, ("type", "Feature") :: d⟩

/-- The per-chunk-file part of the extraction loop (src/main.py
lines 156-170): narrow-phase `intersects` filter against the query box, then
per-feature assembly, skipping features whose payload fails to decode. -/
def processChunk (feats : List Feature) (q : BBox) : List OutFeature :=
  (feats.filter (fun f => featIntersects f q)).filterMap buildFeature

/-- Query normalisation (src/main.py lines 115-118): corners arrive as
`(latitude, longitude)` pairs, i.e. `p.1` is latitude (y) and `p.2` is
longitude (x); `box(min(lon, lon), min(lat, lat), max(lon, lon),
max(lat, lat))`. -/
def normalize_query (top_left bottom_right : ℚ × ℚ) : BBox :=
  ⟨min top_left.2 bottom_right.2, min top_left.1 bottom_right.1,
   max top_left.2 bottom_right.2, max top_left.1 bottom_right.1⟩

/-- Model of `extract_data` from the spatial-index phase on (src/main.py
lines 133-173): candidate chunks are the metadata entries whose recorded
rectangle intersects the query box (the rtree broad phase over-approximates
and line 143 re-checks exactly, so the net candidate set is the exact
rectangle-intersection filter); each candidate file is looked up in storage,
a missing file is skipped with a warning, and each present file is processed
feature by feature. -/
def extract_data (storage : List ((ℚ × ℚ) × List Feature))
    (meta : List ((ℚ × ℚ) × BBox)) (q : BBox) : List OutFeature :=
  (meta.filter (fun e => rectIntersects e.2 q)).flatMap
    (fun e =>
      match alistGet e.1 storage with
      | none => []
      | some feats => processChunk feats q)

/-- The observable states of the metadata file for the loading step
(src/main.py lines 120-130): no `*_metadata.json` file in the input folder;
a file present but rejected by `json.load` with a `JSONDecodeError`; or a
file parsed into a mapping from chunk filenames to bound records. -/
inductive MetaFileState where
  | absent : MetaFileState
  | unparseable : MetaFileState
  | parsed : List (String × BBox) → MetaFileState
deriving DecidableEq

/-- The two fatal metadata errors of the extraction path. -/
inductive MetaError where
  | notFound : MetaError
  | corrupt : MetaError
deriving DecidableEq, Repr

/-- The metadata-loading step of `extract_data` (src/main.py lines 120-130):
a missing file aborts with the not-found error (line 122), a file that
`json.load` rejects aborts with the corrupt error (line 129), and any parsed
mapping is returned as-is — no further validation of the bound records is
performed. -/
def load_metadata : MetaFileState → Except MetaError (List (String × BBox))
  | .absent => .error .notFound
  | .unparseable => .error .corrupt
  | .parsed m => .ok m

/-! ### Properties of the grid generation -/

theorem arangeList_mem_of_lt {s e g : ℚ} {i : ℕ} (h : i < arangeLen s e g) :
    s + i * g ∈ arangeList s e g :=
  List.mem_map.mpr ⟨i, List.mem_range.mpr h, rfl⟩

theorem arangeList_mem_elim {s e g t : ℚ} (h : t ∈ arangeList s e g) :
    ∃ i : ℕ, i < arangeLen s e g ∧ t = s + i * g := by
  obtain ⟨i, hi, hit⟩ := List.mem_map.mp h
  exact ⟨i, List.mem_range.mp hi, hit.symm⟩

theorem lt_arangeLen_iff {s e g : ℚ} (hg : 0 < g) {i : ℕ} :
    i < arangeLen s e g ↔ s + i * g < e := by
  unfold arangeLen
  constructor
  · intro hi
    have h1 : (i : ℤ) < Int.ceil ((e - s) / g) := Int.lt_toNat.mp hi
    have h2 : (i : ℚ) < (e - s) / g := by exact_mod_cast Int.lt_ceil.mp h1
    have h3 := (lt_div_iff₀ hg).mp h2
    linarith
  · intro hi
    have h2 : (i : ℚ) < (e - s) / g := (lt_div_iff₀ hg).mpr (by linarith)
    have h1 : (i : ℤ) < Int.ceil ((e - s) / g) := Int.lt_ceil.mpr (by exact_mod_cast h2)
    exact Int.lt_toNat.mpr h1

theorem mem_arangeList {s e g : ℚ} (hg : 0 < g) {t : ℚ} :
    t ∈ arangeList s e g ↔ ∃ i : ℕ, t = s + i * g ∧ t < e := by
  constructor
  · intro ht
    obtain ⟨i, hi, rfl⟩ := arangeList_mem_elim ht
    exact ⟨i, rfl, (lt_arangeLen_iff hg).mp hi⟩
  · rintro ⟨i, rfl, hlt⟩
    exact arangeList_mem_of_lt ((lt_arangeLen_iff hg).mpr hlt)

theorem arangeLen_pos {s e g : ℚ} (hg : 0 < g) (hse : s < e) :
    1 ≤ arangeLen s e g := by
  have h0 : (0 : ℕ) < arangeLen s e g := (lt_arangeLen_iff hg).mpr (by push_cast; linarith)
  omega

theorem arangeLen_mul_ge {s e g : ℚ} (hg : 0 < g) :
    e - s ≤ (arangeLen s e g : ℚ) * g := by
  unfold arangeLen
  rcases le_or_lt ((e - s) / g) 0 with hle | hpos
  · have : e - s ≤ 0 := by
      have := (div_nonpos_iff.mp hle)
      rcases this with ⟨h1, h2⟩ | ⟨h1, h2⟩
      · linarith
      · linarith
    have : (0 : ℚ) ≤ (((Int.ceil ((e - s) / g)).toNat : ℕ) : ℚ) * g := by positivity
    linarith
  · have hc0 : (0 : ℤ) ≤ Int.ceil ((e - s) / g) := (Int.ceil_pos.mpr hpos).le
    have hcast : (((Int.ceil ((e - s) / g)).toNat : ℕ) : ℚ)
        = ((Int.ceil ((e - s) / g) : ℤ) : ℚ) := by
      exact_mod_cast congrArg (fun z : ℤ => (z : ℚ)) (Int.toNat_of_nonneg hc0)
    rw [hcast]
    have hceil : (e - s) / g ≤ ((Int.ceil ((e - s) / g) : ℤ) : ℚ) := Int.le_ceil _
    exact (div_le_iff₀ hg).mp hceil

theorem arange_covers {s e g : ℚ} (hg : 0 < g) (hse : s < e) {t : ℚ}
    (ht1 : s ≤ t) (ht2 : t ≤ e) :
    ∃ x ∈ arangeList s e g, x ≤ t ∧ t ≤ min (x + g) e := by
  have hn := arangeLen_pos hg hse
  have hK0 : (0 : ℤ) ≤ Int.floor ((t - s) / g) :=
    Int.floor_nonneg.mpr (div_nonneg (by linarith) hg.le)
  have hKcast : (((Int.floor ((t - s) / g)).toNat : ℕ) : ℚ)
      = ((Int.floor ((t - s) / g) : ℤ) : ℚ) := by
    exact_mod_cast congrArg (fun z : ℤ => (z : ℚ)) (Int.toNat_of_nonneg hK0)
  by_cases hcase : (Int.floor ((t - s) / g)).toNat < arangeLen s e g
  · refine ⟨s + (Int.floor ((t - s) / g)).toNat * g, arangeList_mem_of_lt hcase, ?_, ?_⟩
    · have hfl : ((Int.floor ((t - s) / g) : ℤ) : ℚ) ≤ (t - s) / g := Int.floor_le _
      have h2 := (le_div_iff₀ hg).mp hfl
      rw [hKcast]
      linarith
    · refine le_min ?_ ht2
      have hfl : (t - s) / g < ((Int.floor ((t - s) / g) : ℤ) : ℚ) + 1 := Int.lt_floor_add_one _
      have h2 := (div_lt_iff₀ hg).mp hfl
      rw [hKcast]
      linarith
  · push_neg at hcase
    have hmem : arangeLen s e g - 1 < arangeLen s e g := by omega
    refine ⟨s + (arangeLen s e g - 1 : ℕ) * g, arangeList_mem_of_lt hmem, ?_, ?_⟩
    · have h1 : ((arangeLen s e g - 1 : ℕ) : ℤ) < Int.floor ((t - s) / g) := by omega
      have h2 : ((arangeLen s e g - 1 : ℕ) : ℚ) ≤ (t - s) / g := by
        refine le_trans ?_ (Int.floor_le _)
        exact_mod_cast h1.le
      have h3 := (le_div_iff₀ hg).mp h2
      linarith
    · refine le_min ?_ ht2
      have hng := arangeLen_mul_ge (s := s) (e := e) hg
      have hsub : ((arangeLen s e g - 1 : ℕ) : ℚ) = (arangeLen s e g : ℚ) - 1 := by
        have : 1 ≤ arangeLen s e g := hn
        push_cast [Nat.cast_sub this]
        ring
      rw [hsub]
      nlinarith

theorem mem_gridPairs {xs ys : List ℚ} {p : ℚ × ℚ} :
    p ∈ gridPairs xs ys ↔ p.1 ∈ xs ∧ p.2 ∈ ys := by
  unfold gridPairs
  simp only [List.mem_flatMap, List.mem_map]
  constructor
  · rintro ⟨x, hx, y, hy, rfl⟩
    exact ⟨hx, hy⟩
  · rintro ⟨hx, hy⟩
    exact ⟨p.1, hx, p.2, hy, rfl⟩

theorem nodup_arangeList {s e g : ℚ} (hg : g ≠ 0) : (arangeList s e g).Nodup := by
  refine (List.nodup_range _).map ?_
  intro a b hab
  have h1 : (a : ℚ) * g = (b : ℚ) * g := by
    have := hab
    field_simp at this
    rcases this with h | h
    · exact_mod_cast congrArg (fun n : ℕ => (n : ℚ) * g) h
    · exact absurd h hg
  have h2 : (a : ℚ) = (b : ℚ) := mul_right_cancel₀ hg h1
  exact_mod_cast h2

theorem nodup_gridPairs : ∀ {xs ys : List ℚ}, xs.Nodup → ys.Nodup →
    (gridPairs xs ys).Nodup := by
  intro xs ys hx hy
  induction xs with
  | nil => simp [gridPairs]
  | cons x xs ih =>
    rw [List.nodup_cons] at hx
    have hrec := ih hx.2
    simp only [gridPairs, List.flatMap_cons] at hrec ⊢
    refine List.Nodup.append (hy.map ?_) hrec ?_
    · intro a b hab
      exact congrArg Prod.snd hab
    · intro p hp1 hp2
      obtain ⟨y, hy2, rfl⟩ := List.mem_map.mp hp1
      have hmem : (x, y) ∈ gridPairs xs ys := by simpa [gridPairs] using hp2
      exact hx.1 (mem_gridPairs.mp hmem).1

theorem map_key_chunkList_sublist (gdf : List Feature) (b : BBox) (g : ℚ) :
    ((chunkList gdf b g).map Chunk.key).Sublist
      (gridPairs (arangeList b.x_min b.x_max g) (arangeList b.y_min b.y_max g)) := by
  unfold chunkList
  generalize gridPairs (arangeList b.x_min b.x_max g) (arangeList b.y_min b.y_max g) = l
  induction l with
  | nil => simp
  | cons p l ih =>
    rw [List.filterMap_cons]
    dsimp only
    by_cases h : (gdf.filter (fun f => featIntersects f (cellAt b g p.1 p.2))).isEmpty
    · rw [if_pos h]
      exact ih.cons p
    · rw [if_neg h]
      exact ih.cons₂ p

theorem nodup_chunk_keys (gdf : List Feature) (b : BBox) {g : ℚ} (hg : g ≠ 0) :
    ((chunkList gdf b g).map Chunk.key).Nodup :=
  (nodup_gridPairs (nodup_arangeList hg) (nodup_arangeList hg)).sublist
    (map_key_chunkList_sublist gdf b g)

theorem mem_chunkList {gdf : List Feature} {b : BBox} {g : ℚ} {c : Chunk} :
    c ∈ chunkList gdf b g ↔
      c.key ∈ gridPairs (arangeList b.x_min b.x_max g) (arangeList b.y_min b.y_max g)
      ∧ c.rect = cellAt b g c.key.1 c.key.2
      ∧ c.feats = gdf.filter (fun f => featIntersects f (cellAt b g c.key.1 c.key.2))
      ∧ c.feats ≠ [] := by
  unfold chunkList
  rw [List.mem_filterMap]
  constructor
  · rintro ⟨p, hp, hsome⟩
    dsimp only at hsome
    by_cases h : (gdf.filter (fun f => featIntersects f (cellAt b g p.1 p.2))).isEmpty
    · rw [if_pos h] at hsome
      exact absurd hsome (by simp)
    · rw [if_neg h] at hsome
      obtain rfl := Option.some_injective _ hsome
      refine ⟨hp, rfl, rfl, ?_⟩
      simpa [List.isEmpty_iff] using h
  · rcases c with ⟨k, r, fs⟩
    rintro ⟨hkey, hrect, hfeats, hne⟩
    dsimp only at hkey hrect hfeats hne ⊢
    refine ⟨k, hkey, ?_⟩
    dsimp only
    have hne2 : ¬ ((gdf.filter
        (fun f => featIntersects f (cellAt b g k.1 k.2))).isEmpty = true) := by
      rw [List.isEmpty_iff, ← hfeats]
      exact hne
    rw [if_neg hne2, hrect, hfeats]

theorem foldl_min_le_init (f : ℚ × ℚ → ℚ) :
    ∀ (l : List (ℚ × ℚ)) (a : ℚ), l.foldl (fun a q => min a (f q)) a ≤ a := by
  intro l
  induction l with
  | nil => intro a; simp
  | cons x l ih => intro a; exact le_trans (ih _) (min_le_left _ _)

theorem foldl_min_le_mem (f : ℚ × ℚ → ℚ) :
    ∀ (l : List (ℚ × ℚ)) (a : ℚ) (p : ℚ × ℚ), p ∈ l →
      l.foldl (fun a q => min a (f q)) a ≤ f p := by
  intro l
  induction l with
  | nil => intro a p h; simp at h
  | cons x l ih =>
    intro a p h
    rcases List.mem_cons.mp h with rfl | h2
    · exact le_trans (foldl_min_le_init f l _) (min_le_right _ _)
    · exact ih _ _ h2

theorem foldl_max_init_le (f : ℚ × ℚ → ℚ) :
    ∀ (l : List (ℚ × ℚ)) (a : ℚ), a ≤ l.foldl (fun a q => max a (f q)) a := by
  intro l
  induction l with
  | nil => intro a; simp
  | cons x l ih => intro a; exact le_trans (le_max_left _ _) (ih _)

theorem foldl_max_mem_le (f : ℚ × ℚ → ℚ) :
    ∀ (l : List (ℚ × ℚ)) (a : ℚ) (p : ℚ × ℚ), p ∈ l →
      f p ≤ l.foldl (fun a q => max a (f q)) a := by
  intro l
  induction l with
  | nil => intro a p h; simp at h
  | cons x l ih =>
    intro a p h
    rcases List.mem_cons.mp h with rfl | h2
    · exact le_trans (le_max_right _ _) (foldl_max_init_le f l _)
    · exact ih _ _ h2

theorem totalBounds_spec {gdf : List Feature} {f : Feature} {p : ℚ × ℚ}
    (hf : f ∈ gdf) (hp : p ∈ f.geom) : inBBox (totalBounds gdf) p := by
  have hmem : p ∈ gdf.flatMap (fun f => f.geom) := List.mem_flatMap.mpr ⟨f, hf, hp⟩
  unfold totalBounds
  split
  · next heq => rw [heq] at hmem; simp at hmem
  · next q qs heq =>
    rw [heq] at hmem
    rcases List.mem_cons.mp hmem with rfl | h2
    · exact ⟨foldl_min_le_init _ _ _, foldl_max_init_le _ _ _,
        foldl_min_le_init _ _ _, foldl_max_init_le _ _ _⟩
    · exact ⟨foldl_min_le_mem _ _ _ _ h2, foldl_max_mem_le _ _ _ _ h2,
        foldl_min_le_mem _ _ _ _ h2, foldl_max_mem_le _ _ _ _ h2⟩

theorem arangeList_bounds {s e g : ℚ} (hg : 0 < g) {x : ℚ}
    (hx : x ∈ arangeList s e g) : s ≤ x ∧ x < e := by
  obtain ⟨i, hxeq, hlt⟩ := (mem_arangeList hg).mp hx
  subst hxeq
  have h0 : (0 : ℚ) ≤ (i : ℚ) * g := by positivity
  exact ⟨by linarith, hlt⟩

theorem cell_subset_bbox {b : BBox} {g : ℚ} (hg : 0 < g) {q : ℚ × ℚ}
    (hq : q ∈ gridPairs (arangeList b.x_min b.x_max g) (arangeList b.y_min b.y_max g))
    {p : ℚ × ℚ} (hp : inBBox (cellAt b g q.1 q.2) p) : inBBox b p := by
  obtain ⟨hqx, hqy⟩ := mem_gridPairs.mp hq
  obtain ⟨hx1, _⟩ := arangeList_bounds hg hqx
  obtain ⟨hy1, _⟩ := arangeList_bounds hg hqy
  obtain ⟨h1, h2, h3, h4⟩ := hp
  exact ⟨le_trans hx1 h1, le_trans h2 (min_le_right _ _),
    le_trans hy1 h3, le_trans h4 (min_le_right _ _)⟩

theorem grid_covers {b : BBox} {g : ℚ} (hg : 0 < g)
    (hw : b.x_min < b.x_max) (hh : b.y_min < b.y_max) {p : ℚ × ℚ} (hp : inBBox b p) :
    ∃ q ∈ gridPairs (arangeList b.x_min b.x_max g) (arangeList b.y_min b.y_max g),
      inBBox (cellAt b g q.1 q.2) p := by
  obtain ⟨h1, h2, h3, h4⟩ := hp
  obtain ⟨x, hxmem, hx1, hx2⟩ := arange_covers hg hw h1 h2
  obtain ⟨y, hymem, hy1, hy2⟩ := arange_covers hg hh h3 h4
  exact ⟨(x, y), mem_gridPairs.mpr ⟨hxmem, hymem⟩, hx1, hx2, hy1, hy2⟩

theorem cellSide_pos {b : BBox} {g : ℚ} (hg : isCellSide b g)
    (hw : b.x_min < b.x_max) (hh : b.y_min < b.y_max) : 0 < g := by
  obtain ⟨hg0, hgsq⟩ := hg
  have harea : 0 < (b.x_max - b.x_min) * (b.y_max - b.y_min) / 100 :=
    div_pos (mul_pos (by linarith) (by linarith)) (by norm_num)
  rcases lt_or_eq_of_le hg0 with h | h
  · exact h
  · exfalso
    rw [← h] at hgsq
    nlinarith

/-- C4: for a non-degenerate bounding box, the union of the generated
grid cell rectangles is exactly the bounding box (every point of the box
lies in some cell, and every cell lies inside the box), and two
edge-adjacent cells (consecutive grid origins on one axis, same origin on
the other) overlap exactly in their common edge segment. -/
theorem grid_cells_cover_and_tile (b : BBox) (g : ℚ) (hg : isCellSide b g)
    (hw : b.x_min < b.x_max) (hh : b.y_min < b.y_max) :
    (∀ p : ℚ × ℚ, inBBox b p ↔ ∃ c ∈ gridCells b g, inBBox c p)
    ∧ (∀ x y : ℚ, x ∈ arangeList b.x_min b.x_max g →
        x + g ∈ arangeList b.x_min b.x_max g → y ∈ arangeList b.y_min b.y_max g →
        ∀ p : ℚ × ℚ, (inBBox (cellAt b g x y) p ∧ inBBox (cellAt b g (x + g) y) p) ↔
          (p.1 = x + g ∧ y ≤ p.2 ∧ p.2 ≤ min (y + g) b.y_max))
    ∧ (∀ x y : ℚ, x ∈ arangeList b.x_min b.x_max g →
        y ∈ arangeList b.y_min b.y_max g → y + g ∈ arangeList b.y_min b.y_max g →
        ∀ p : ℚ × ℚ, (inBBox (cellAt b g x y) p ∧ inBBox (cellAt b g x (y + g)) p) ↔
          (p.2 = y + g ∧ x ≤ p.1 ∧ p.1 ≤ min (x + g) b.x_max)) := by
  have hgpos : 0 < g := cellSide_pos hg hw hh
  refine ⟨?_, ?_, ?_⟩
  · intro p
    constructor
    · intro hp
      obtain ⟨q, hq, hmem⟩ := grid_covers hgpos hw hh hp
      exact ⟨cellAt b g q.1 q.2, List.mem_map.mpr ⟨q, hq, rfl⟩, hmem⟩
    · rintro ⟨c, hc, hmem⟩
      obtain ⟨q, hq, rfl⟩ := List.mem_map.mp hc
      exact cell_subset_bbox hgpos hq hmem
  · intro x y hx hxg hy p
    have hxlt : x + g < b.x_max := (arangeList_bounds hgpos hxg).2
    constructor
    · rintro ⟨⟨ha1, ha2, ha3, ha4⟩, ⟨hb1, hb2, hb3, hb4⟩⟩
      exact ⟨le_antisymm (le_trans ha2 (min_le_left _ _)) hb1, ha3, ha4⟩
    · rintro ⟨hpeq, hy1, hy2⟩
      simp only [inBBox, cellAt]
      refine ⟨⟨?_, ?_, hy1, hy2⟩, ⟨?_, ?_, hy1, hy2⟩⟩
      · rw [hpeq]; linarith
      · rw [hpeq]; exact le_min (le_refl _) hxlt.le
      · rw [hpeq]
      · rw [hpeq]; exact le_min (by linarith) hxlt.le
  · intro x y hx hy hyg p
    have hylt : y + g < b.y_max := (arangeList_bounds hgpos hyg).2
    constructor
    · rintro ⟨⟨ha1, ha2, ha3, ha4⟩, ⟨hb1, hb2, hb3, hb4⟩⟩
      exact ⟨le_antisymm (le_trans ha4 (min_le_left _ _)) hb3, ha1, ha2⟩
    · rintro ⟨hpeq, hx1, hx2⟩
      simp only [inBBox, cellAt]
      refine ⟨⟨hx1, hx2, ?_, ?_⟩, ⟨hx1, hx2, ?_, ?_⟩⟩
      · rw [hpeq]; linarith
      · rw [hpeq]; exact le_min (le_refl _) hylt.le
      · rw [hpeq]
      · rw [hpeq]; exact le_min (by linarith) hylt.le

/-- Witness for C4 at the box `(0, 0, 10, 10)` with cell side `1`. -/
theorem grid_cells_cover_and_tile_witness :
    isCellSide ⟨0, 0, 10, 10⟩ 1 ∧ ((0 : ℚ) < 10) ∧ ((0 : ℚ) < 10) ∧
    ((∀ p : ℚ × ℚ, inBBox ⟨0, 0, 10, 10⟩ p ↔
        ∃ c ∈ gridCells ⟨0, 0, 10, 10⟩ 1, inBBox c p)
    ∧ (∀ x y : ℚ, x ∈ arangeList 0 10 1 → x + 1 ∈ arangeList 0 10 1 →
        y ∈ arangeList 0 10 1 →
        ∀ p : ℚ × ℚ, (inBBox (cellAt ⟨0, 0, 10, 10⟩ 1 x y) p ∧
            inBBox (cellAt ⟨0, 0, 10, 10⟩ 1 (x + 1) y) p) ↔
          (p.1 = x + 1 ∧ y ≤ p.2 ∧ p.2 ≤ min (y + 1) 10))
    ∧ (∀ x y : ℚ, x ∈ arangeList 0 10 1 → y ∈ arangeList 0 10 1 →
        y + 1 ∈ arangeList 0 10 1 →
        ∀ p : ℚ × ℚ, (inBBox (cellAt ⟨0, 0, 10, 10⟩ 1 x y) p ∧
            inBBox (cellAt ⟨0, 0, 10, 10⟩ 1 x (y + 1)) p) ↔
          (p.2 = y + 1 ∧ x ≤ p.1 ∧ p.1 ≤ min (x + 1) 10))) :=
  ⟨⟨by norm_num, by norm_num⟩, by norm_num, by norm_num,
    grid_cells_cover_and_tile ⟨0, 0, 10, 10⟩ 1 ⟨by norm_num, by norm_num⟩
      (by norm_num) (by norm_num)⟩

/-- C5: with the cell side the nonnegative square root of
`width * height / 100` (target chunk count 100), the grid origins on each
axis are exactly the values `axis_min + i * cell_side` lying strictly before
the axis maximum, and every persisted cell rectangle is the clipped
rectangle `(x, y, min(x + cell_side, x_max), min(y + cell_side, y_max))`,
so boundary cells may be smaller than `cell_side`. -/
theorem cell_side_grid_spec (b : BBox) (g : ℚ) (hg : isCellSide b g)
    (hw : b.x_min < b.x_max) (hh : b.y_min < b.y_max) (gdf : List Feature) :
    (∀ t : ℚ, t ∈ arangeList b.x_min b.x_max g ↔
      ∃ i : ℕ, t = b.x_min + i * g ∧ t < b.x_max)
    ∧ (∀ t : ℚ, t ∈ arangeList b.y_min b.y_max g ↔
      ∃ i : ℕ, t = b.y_min + i * g ∧ t < b.y_max)
    ∧ ∃ cs, divide_data gdf b g = some cs ∧ ∀ c ∈ cs,
        c.rect = ⟨c.key.1, c.key.2, min (c.key.1 + g) b.x_max,
          min (c.key.2 + g) b.y_max⟩ := by
  have hgpos : 0 < g := cellSide_pos hg hw hh
  refine ⟨fun t => mem_arangeList hgpos, fun t => mem_arangeList hgpos,
    chunkList gdf b g, ?_, ?_⟩
  · rw [divide_data, if_neg hgpos.ne.symm]
  · intro c hc
    exact (mem_chunkList.mp hc).2.1

/-- Witness for C5 at the box `(0, 0, 10, 10)`, cell side `1`, empty
collection. -/
theorem cell_side_grid_spec_witness :
    isCellSide ⟨0, 0, 10, 10⟩ 1 ∧ ((0 : ℚ) < 10) ∧ ((0 : ℚ) < 10) ∧
    ((∀ t : ℚ, t ∈ arangeList 0 10 1 ↔ ∃ i : ℕ, t = 0 + i * 1 ∧ t < 10)
     ∧ (∀ t : ℚ, t ∈ arangeList 0 10 1 ↔ ∃ i : ℕ, t = 0 + i * 1 ∧ t < 10)
     ∧ ∃ cs, divide_data [] ⟨0, 0, 10, 10⟩ 1 = some cs ∧ ∀ c ∈ cs,
         c.rect = ⟨c.key.1, c.key.2, min (c.key.1 + 1) 10, min (c.key.2 + 1) 10⟩) :=
  ⟨⟨by norm_num, by norm_num⟩, by norm_num, by norm_num,
    cell_side_grid_spec ⟨0, 0, 10, 10⟩ 1 ⟨by norm_num, by norm_num⟩
      (by norm_num) (by norm_num) []⟩

/-- C6: a chunk is persisted (and an entry recorded in metadata) for a
grid cell iff at least one feature intersects the cell rectangle; the chunk
holds exactly the features of the collection intersecting the cell
rectangle, and the metadata value for the chunk is the cell rectangle. -/
theorem chunk_persisted_iff (gdf : List Feature) (b : BBox) (g : ℚ) (hg : g ≠ 0) :
    ∃ cs, divide_data gdf b g = some cs
      ∧ (∀ p ∈ gridPairs (arangeList b.x_min b.x_max g) (arangeList b.y_min b.y_max g),
          ((∃ mv, (p, mv) ∈ chunkMeta cs) ↔
            ∃ f ∈ gdf, featIntersects f (cellAt b g p.1 p.2) = true))
      ∧ (∀ c ∈ cs, c.feats = gdf.filter (fun f => featIntersects f c.rect)
          ∧ (c.key, cellAt b g c.key.1 c.key.2) ∈ chunkMeta cs
          ∧ c.rect = cellAt b g c.key.1 c.key.2) := by
  refine ⟨chunkList gdf b g, by rw [divide_data, if_neg hg], ?_, ?_⟩
  · intro p hp
    constructor
    · rintro ⟨mv, hmv⟩
      obtain ⟨c, hc, hck⟩ := List.mem_map.mp hmv
      have hkey : c.key = p := congrArg Prod.fst hck
      obtain ⟨-, -, hfeats, hne⟩ := mem_chunkList.mp hc
      rw [hkey] at hfeats
      rw [hfeats] at hne
      obtain ⟨f, hf⟩ := List.exists_mem_of_ne_nil _ hne
      have hmf := List.mem_filter.mp hf
      exact ⟨f, hmf.1, hmf.2⟩
    · rintro ⟨f, hf, hint⟩
      have hfmem : f ∈ gdf.filter (fun x => featIntersects x (cellAt b g p.1 p.2)) :=
        List.mem_filter.mpr ⟨hf, hint⟩
      have hne : gdf.filter (fun x => featIntersects x (cellAt b g p.1 p.2)) ≠ [] :=
        List.ne_nil_of_mem hfmem
      refine ⟨cellAt b g p.1 p.2, List.mem_map.mpr
        ⟨⟨p, cellAt b g p.1 p.2, gdf.filter (fun x => featIntersects x (cellAt b g p.1 p.2))⟩,
          mem_chunkList.mpr ⟨hp, rfl, rfl, hne⟩, rfl⟩⟩
  · intro c hc
    obtain ⟨hkey, hrect, hfeats, hne⟩ := mem_chunkList.mp hc
    refine ⟨?_, ?_, hrect⟩
    · rw [hrect]
      exact hfeats
    · refine List.mem_map.mpr ⟨c, hc, ?_⟩
      rw [hrect]

/-- Witness for C6 at the unit box with cell side `1` and an empty
collection. -/
theorem chunk_persisted_iff_witness :
    ((1 : ℚ) ≠ 0) ∧
    (∃ cs, divide_data [] ⟨0, 0, 1, 1⟩ 1 = some cs
      ∧ (∀ p ∈ gridPairs (arangeList 0 1 1) (arangeList 0 1 1),
          ((∃ mv, (p, mv) ∈ chunkMeta cs) ↔
            ∃ f ∈ ([] : List Feature),
              featIntersects f (cellAt ⟨0, 0, 1, 1⟩ 1 p.1 p.2) = true))
      ∧ (∀ c ∈ cs, c.feats = List.filter (fun f => featIntersects f c.rect) []
          ∧ (c.key, cellAt ⟨0, 0, 1, 1⟩ 1 c.key.1 c.key.2) ∈ chunkMeta cs
          ∧ c.rect = cellAt ⟨0, 0, 1, 1⟩ 1 c.key.1 c.key.2)) :=
  ⟨by norm_num, chunk_persisted_iff [] ⟨0, 0, 1, 1⟩ 1 (by norm_num)⟩

/-- C1 (behaviour of the code at the degenerate case): when the bounding
box has zero width or zero height, `grid_size` is `0` and
`np.arange(..., 0)` raises `ZeroDivisionError` — `divide_data` crashes
instead of producing a single chunk. -/
theorem degenerate_bbox_divide_crashes (gdf : List Feature) (b : BBox) (g : ℚ)
    (hg : isCellSide b g) (hdeg : b.x_max = b.x_min ∨ b.y_max = b.y_min) :
    divide_data gdf b g = none := by
  obtain ⟨hg0, hgsq⟩ := hg
  have harea : (b.x_max - b.x_min) * (b.y_max - b.y_min) / 100 = 0 := by
    rcases hdeg with h | h <;> rw [h] <;> ring
  rw [harea] at hgsq
  rw [divide_data, if_pos (mul_self_eq_zero.mp hgsq)]

/-- Witness for C1: a single-point dataset whose bounding box has zero
width. -/
theorem degenerate_bbox_divide_crashes_witness :
    isCellSide ⟨0, 0, 0, 5⟩ 0 ∧ ((0 : ℚ) = 0 ∨ (5 : ℚ) = 0) ∧
    divide_data [⟨[(0, 0)], some []⟩] ⟨0, 0, 0, 5⟩ 0 = none :=
  ⟨⟨by norm_num, by norm_num⟩, Or.inl rfl,
    degenerate_bbox_divide_crashes [⟨[(0, 0)], some []⟩] ⟨0, 0, 0, 5⟩ 0
      ⟨by norm_num, by norm_num⟩ (Or.inl rfl)⟩

/-! ### Properties of the extraction pipeline -/

theorem filter_flatMap {α β : Type} (l : List α) (p : α → Bool) (f : α → List β) :
    (l.filter p).flatMap f = l.flatMap (fun a => if p a then f a else []) := by
  induction l with
  | nil => rfl
  | cons a l ih =>
    rw [List.filter_cons, List.flatMap_cons]
    by_cases h : p a
    · rw [if_pos h, if_pos h, List.flatMap_cons, ih]
    · rw [if_neg h, if_neg h, ih, List.nil_append]

theorem map_congr_mem {α β : Type} : ∀ {l : List α} {f g : α → β},
    (∀ a ∈ l, f a = g a) → l.map f = l.map g := by
  intro l f g h
  induction l with
  | nil => rfl
  | cons a l ih =>
    rw [List.map_cons, List.map_cons, h a (.head _), ih (fun x hx => h x (.tail _ hx))]

theorem flatMap_congr_mem {α β : Type} : ∀ {l : List α} {f g : α → List β},
    (∀ a ∈ l, f a = g a) → l.flatMap f = l.flatMap g := by
  intro l f g h
  induction l with
  | nil => rfl
  | cons a l ih =>
    rw [List.flatMap_cons, List.flatMap_cons, h a (.head _),
      ih (fun x hx => h x (.tail _ hx))]

theorem alistGet_chunkStorage {cs : List Chunk} (hnd : (cs.map Chunk.key).Nodup)
    {c : Chunk} (hc : c ∈ cs) : alistGet c.key (chunkStorage cs) = some c.feats := by
  induction cs with
  | nil => simp at hc
  | cons d cs ih =>
    rw [List.map_cons, List.nodup_cons] at hnd
    rcases List.mem_cons.mp hc with rfl | h2
    · simp [chunkStorage, alistGet]
    · have hne : d.key ≠ c.key := fun he => hnd.1 (he ▸ List.mem_map_of_mem Chunk.key h2)
      simp only [chunkStorage, List.map_cons, alistGet]
      rw [if_neg hne]
      exact ih hnd.2 h2

theorem extract_data_chunks (cs : List Chunk) (hnd : (cs.map Chunk.key).Nodup) (q : BBox) :
    extract_data (chunkStorage cs) (chunkMeta cs) q
      = cs.flatMap
          (fun c => if rectIntersects c.rect q then processChunk c.feats q else []) := by
  unfold extract_data
  rw [filter_flatMap]
  unfold chunkMeta
  rw [List.flatMap_map]
  refine flatMap_congr_mem ?_
  intro c hc
  dsimp only
  by_cases h : rectIntersects c.rect q
  · rw [if_pos h, if_pos h, alistGet_chunkStorage hnd hc]
  · rw [if_neg h, if_neg h]

theorem length_filterMap_buildFeature : ∀ {feats : List Feature},
    (∀ f ∈ feats, f.props ≠ none) →
    (feats.filterMap buildFeature).length = feats.length := by
  intro feats h
  induction feats with
  | nil => rfl
  | cons f l ih =>
    rw [List.filterMap_cons]
    cases hp : f.props with
    | none => exact absurd hp (h f (.head _))
    | some d =>
      rw [show buildFeature f = some ⟨f.geom, ("type", "Feature") :: d⟩ by
        unfold buildFeature; rw [hp]]
      rw [List.length_cons, List.length_cons, ih (fun x hx => h x (.tail _ hx))]

theorem length_processChunk {feats : List Feature} {q : BBox}
    (hint : ∀ f ∈ feats, featIntersects f q = true)
    (hdec : ∀ f ∈ feats, f.props ≠ none) :
    (processChunk feats q).length = feats.length := by
  unfold processChunk
  rw [List.filter_eq_self.mpr hint]
  exact length_filterMap_buildFeature hdec

theorem buildFeature_some {f : Feature} {o : OutFeature} (h : buildFeature f = some o) :
    ∃ d, f.props = some d ∧ o = ⟨f.geom, ("type", "Feature") :: d⟩ := by
  unfold buildFeature at h
  cases hp : f.props with
  | none => rw [hp] at h; simp at h
  | some d => rw [hp] at h; exact ⟨d, rfl, (Option.some_injective _ h).symm⟩

theorem extract_data_mem_src {storage : List ((ℚ × ℚ) × List Feature)}
    {meta : List ((ℚ × ℚ) × BBox)} {q : BBox} {o : OutFeature}
    (ho : o ∈ extract_data storage meta q) :
    ∃ f : Feature, featIntersects f q = true ∧ buildFeature f = some o := by
  unfold extract_data at ho
  obtain ⟨e, he, ho2⟩ := List.mem_flatMap.mp ho
  cases hs : alistGet e.1 storage with
  | none => rw [hs] at ho2; simp at ho2
  | some feats =>
    rw [hs] at ho2
    obtain ⟨f, hf, hbf⟩ := List.mem_filterMap.mp ho2
    exact ⟨f, (List.mem_filter.mp hf).2, hbf⟩

theorem sum_map_add {α : Type} (l : List α) (f g : α → ℕ) :
    (l.map (fun a => f a + g a)).sum = (l.map f).sum + (l.map g).sum := by
  induction l with
  | nil => rfl
  | cons a l ih =>
    rw [List.map_cons, List.map_cons, List.map_cons, List.sum_cons, List.sum_cons,
      List.sum_cons, ih]
    omega

theorem one_le_sum_indicator {α : Type} {x : α} : ∀ {Ps : List (α → Bool)},
    (∃ p ∈ Ps, p x = true) →
    1 ≤ (Ps.map (fun p => if p x then 1 else 0)).sum := by
  intro Ps
  induction Ps with
  | nil =>
    rintro ⟨p, hp, -⟩
    simp at hp
  | cons p Ps ih =>
    rintro ⟨p2, hp2, hpx⟩
    rw [List.map_cons, List.sum_cons]
    rcases List.mem_cons.mp hp2 with rfl | h2
    · rw [if_pos hpx]
      exact Nat.le_add_right 1 _
    · exact le_trans (ih ⟨p2, h2, hpx⟩) (Nat.le_add_left _ _)

theorem length_le_sum_filter {α : Type} (Ps : List (α → Bool)) :
    ∀ l : List α, (∀ x ∈ l, ∃ p ∈ Ps, p x = true) →
      l.length ≤ (Ps.map (fun p => (l.filter p).length)).sum := by
  intro l
  induction l with
  | nil => intro; simp
  | cons x l ih =>
    intro h
    have hx := h x (.head _)
    have hl := ih (fun y hy => h y (.tail _ hy))
    have hsplit : Ps.map (fun p => ((x :: l).filter p).length)
        = Ps.map (fun p => (l.filter p).length + (if p x then 1 else 0)) := by
      refine map_congr_mem ?_
      intro p hp
      rw [List.filter_cons]
      by_cases hpx : p x
      · rw [if_pos hpx, if_pos hpx, List.length_cons]
      · rw [if_neg hpx, if_neg hpx, Nat.add_zero]
    rw [List.length_cons, hsplit, sum_map_add]
    exact Nat.add_le_add hl (one_le_sum_indicator hx)

theorem sum_feats_chunkList (gdf : List Feature) (b : BBox) (g : ℚ) :
    ((chunkList gdf b g).map (fun c => c.feats.length)).sum
      = ((gridPairs (arangeList b.x_min b.x_max g) (arangeList b.y_min b.y_max g)).map
          (fun p =>
            (gdf.filter (fun f => featIntersects f (cellAt b g p.1 p.2))).length)).sum := by
  unfold chunkList
  generalize gridPairs (arangeList b.x_min b.x_max g) (arangeList b.y_min b.y_max g) = l
  induction l with
  | nil => rfl
  | cons p l ih =>
    rw [List.filterMap_cons, List.map_cons, List.sum_cons]
    dsimp only
    by_cases h : (gdf.filter (fun f => featIntersects f (cellAt b g p.1 p.2))).isEmpty
    · rw [if_pos h, ih]
      have hlen : (gdf.filter (fun f => featIntersects f (cellAt b g p.1 p.2))).length = 0 :=
        List.length_eq_zero.mpr (List.isEmpty_iff.mp h)
      omega
    · rw [if_neg h, List.map_cons, List.sum_cons, ih]

theorem chunk_rect_intersects_bounds {gdf : List Feature} {b : BBox} {g : ℚ}
    (hgpos : 0 < g) {c : Chunk} (hc : c ∈ chunkList gdf b g) :
    rectIntersects c.rect b = true := by
  obtain ⟨hkey, hrect, -, -⟩ := mem_chunkList.mp hc
  obtain ⟨hx, hy⟩ := mem_gridPairs.mp hkey
  obtain ⟨hx1, hx2⟩ := arangeList_bounds hgpos hx
  obtain ⟨hy1, hy2⟩ := arangeList_bounds hgpos hy
  rw [hrect]
  unfold rectIntersects cellAt
  simp only [Bool.and_eq_true, decide_eq_true_eq]
  exact ⟨⟨⟨hx2.le, le_min (by linarith) (le_trans hx1 hx2.le)⟩, hy2.le⟩,
    le_min (by linarith) (le_trans hy1 hy2.le)⟩

theorem feat_intersects_totalBounds {gdf : List Feature} {f : Feature}
    (hf : f ∈ gdf) (hne : f.geom ≠ []) :
    featIntersects f (totalBounds gdf) = true := by
  obtain ⟨p, hp⟩ := List.exists_mem_of_ne_nil _ hne
  unfold featIntersects geomIntersects
  rw [List.any_eq_true]
  exact ⟨p, hp, decide_eq_true (totalBounds_spec hf hp)⟩

/-- C3: for a partitioned dataset in which every feature has a non-empty
geometry and an attribute payload that decodes successfully, extracting with
a query region equal to the full dataset bounding box returns every feature
of the collection at least once (output count is at least the collection
count; boundary duplicates are preserved), and every output feature
intersects the query region. -/
theorem extract_full_bbox_complete (gdf : List Feature) (g : ℚ)
    (hgeom : ∀ f ∈ gdf, f.geom ≠ [])
    (hdec : ∀ f ∈ gdf, f.props ≠ none)
    (hg : isCellSide (totalBounds gdf) g)
    (hw : (totalBounds gdf).x_min < (totalBounds gdf).x_max)
    (hh : (totalBounds gdf).y_min < (totalBounds gdf).y_max) :
    ∃ cs, divide_data gdf (totalBounds gdf) g = some cs
      ∧ gdf.length ≤
          (extract_data (chunkStorage cs) (chunkMeta cs) (totalBounds gdf)).length
      ∧ ∀ o ∈ extract_data (chunkStorage cs) (chunkMeta cs) (totalBounds gdf),
          geomIntersects o.geom (totalBounds gdf) = true := by
  have hgpos : 0 < g := cellSide_pos hg hw hh
  have hnd := nodup_chunk_keys gdf (totalBounds gdf) hgpos.ne.symm
  refine ⟨chunkList gdf (totalBounds gdf) g,
    by rw [divide_data, if_neg hgpos.ne.symm], ?_, ?_⟩
  · have hext : extract_data (chunkStorage (chunkList gdf (totalBounds gdf) g))
        (chunkMeta (chunkList gdf (totalBounds gdf) g)) (totalBounds gdf)
        = (chunkList gdf (totalBounds gdf) g).flatMap
            (fun c => processChunk c.feats (totalBounds gdf)) := by
      rw [extract_data_chunks _ hnd]
      refine flatMap_congr_mem ?_
      intro c hc
      rw [if_pos (chunk_rect_intersects_bounds hgpos hc)]
    have hchunklen : ∀ c ∈ chunkList gdf (totalBounds gdf) g,
        ((fun x => processChunk x.feats (totalBounds gdf)) c).length
          = (fun x => x.feats.length) c := by
      intro c hc
      obtain ⟨-, -, hfeats, -⟩ := mem_chunkList.mp hc
      have hsub : ∀ f ∈ c.feats, f ∈ gdf := by
        intro f hf
        rw [hfeats] at hf
        exact (List.mem_filter.mp hf).1
      exact length_processChunk
        (fun f hf => feat_intersects_totalBounds (hsub f hf) (hgeom f (hsub f hf)))
        (fun f hf => hdec f (hsub f hf))
    have hcover : ∀ f ∈ gdf,
        ∃ pr ∈ (gridPairs (arangeList (totalBounds gdf).x_min (totalBounds gdf).x_max g)
            (arangeList (totalBounds gdf).y_min (totalBounds gdf).y_max g)).map
            (fun p => fun x => featIntersects x (cellAt (totalBounds gdf) g p.1 p.2)),
          pr f = true := by
      intro f hf
      obtain ⟨p0, hp0⟩ := List.exists_mem_of_ne_nil _ (hgeom f hf)
      obtain ⟨q, hq, hcell⟩ := grid_covers hgpos hw hh (totalBounds_spec hf hp0)
      refine ⟨fun x => featIntersects x (cellAt (totalBounds gdf) g q.1 q.2),
        List.mem_map_of_mem _ hq, ?_⟩
      unfold featIntersects geomIntersects
      rw [List.any_eq_true]
      exact ⟨p0, hp0, decide_eq_true hcell⟩
    have hsum := length_le_sum_filter
      ((gridPairs (arangeList (totalBounds gdf).x_min (totalBounds gdf).x_max g)
          (arangeList (totalBounds gdf).y_min (totalBounds gdf).y_max g)).map
        (fun p => fun x => featIntersects x (cellAt (totalBounds gdf) g p.1 p.2)))
      gdf hcover
    rw [List.map_map] at hsum
    rw [hext, List.length_flatMap]
    have hcomp : (chunkList gdf (totalBounds gdf) g).map
        (List.length ∘ fun c => processChunk c.feats (totalBounds gdf))
        = (chunkList gdf (totalBounds gdf) g).map (fun c => c.feats.length) :=
      map_congr_mem hchunklen
    rw [hcomp, sum_feats_chunkList]
    exact hsum
  · intro o ho
    obtain ⟨f, hfi, hbf⟩ := extract_data_mem_src ho
    obtain ⟨d, -, rfl⟩ := buildFeature_some hbf
    exact hfi

/-- Witness for C3: two single-point features spanning the box
`(0, 0, 10, 10)`, cell side `1`. -/
theorem extract_full_bbox_complete_witness :
    (∀ f ∈ [Feature.mk [(0, 0)] (some []), ⟨[(10, 10)], some []⟩], f.geom ≠ [])
    ∧ (∀ f ∈ [Feature.mk [(0, 0)] (some []), ⟨[(10, 10)], some []⟩], f.props ≠ none)
    ∧ isCellSide (totalBounds [⟨[(0, 0)], some []⟩, ⟨[(10, 10)], some []⟩]) 1
    ∧ (totalBounds [⟨[(0, 0)], some []⟩, ⟨[(10, 10)], some []⟩]).x_min
        < (totalBounds [⟨[(0, 0)], some []⟩, ⟨[(10, 10)], some []⟩]).x_max
    ∧ (totalBounds [⟨[(0, 0)], some []⟩, ⟨[(10, 10)], some []⟩]).y_min
        < (totalBounds [⟨[(0, 0)], some []⟩, ⟨[(10, 10)], some []⟩]).y_max
    ∧ ∃ cs, divide_data [⟨[(0, 0)], some []⟩, ⟨[(10, 10)], some []⟩]
          (totalBounds [⟨[(0, 0)], some []⟩, ⟨[(10, 10)], some []⟩]) 1 = some cs
        ∧ ([⟨[(0, 0)], some []⟩, ⟨[(10, 10)], some []⟩] : List Feature).length ≤
            (extract_data (chunkStorage cs) (chunkMeta cs)
              (totalBounds [⟨[(0, 0)], some []⟩, ⟨[(10, 10)], some []⟩])).length
        ∧ ∀ o ∈ extract_data (chunkStorage cs) (chunkMeta cs)
              (totalBounds [⟨[(0, 0)], some []⟩, ⟨[(10, 10)], some []⟩]),
            geomIntersects o.geom
              (totalBounds [⟨[(0, 0)], some []⟩, ⟨[(10, 10)], some []⟩]) = true :=
  ⟨by decide, by decide,
    by
      rw [show totalBounds [⟨[(0, 0)], some []⟩, ⟨[(10, 10)], some []⟩]
          = ⟨0, 0, 10, 10⟩ from by decide]
      exact ⟨by norm_num, by norm_num⟩,
    by decide, by decide,
    extract_full_bbox_complete [⟨[(0, 0)], some []⟩, ⟨[(10, 10)], some []⟩] 1
      (by decide) (by decide)
      (by
        rw [show totalBounds [⟨[(0, 0)], some []⟩, ⟨[(10, 10)], some []⟩]
            = ⟨0, 0, 10, 10⟩ from by decide]
        exact ⟨by norm_num, by norm_num⟩)
      (by decide) (by decide)⟩

/-- C7: the extractor normalises the two `(latitude, longitude)` query
corners into a well-ordered axis-aligned box before any intersection test,
and the normalisation — hence the whole extraction — is invariant under
swapping the two corner arguments. -/
theorem query_normalized_and_swap_invariant (top_left bottom_right : ℚ × ℚ) :
    wellOrdered (normalize_query top_left bottom_right)
    ∧ normalize_query top_left bottom_right = normalize_query bottom_right top_left
    ∧ ∀ (storage : List ((ℚ × ℚ) × List Feature)) (meta : List ((ℚ × ℚ) × BBox)),
        extract_data storage meta (normalize_query top_left bottom_right)
          = extract_data storage meta (normalize_query bottom_right top_left) := by
  have hsymm : normalize_query top_left bottom_right
      = normalize_query bottom_right top_left := by
    unfold normalize_query
    rw [min_comm, max_comm, min_comm top_left.1, max_comm top_left.1]
  exact ⟨⟨min_le_max, min_le_max⟩, hsymm, fun storage meta => by rw [hsymm]⟩

theorem extract_data_cons_missing (storage : List ((ℚ × ℚ) × List Feature))
    (e : (ℚ × ℚ) × BBox) (meta : List ((ℚ × ℚ) × BBox)) (q : BBox)
    (hmiss : alistGet e.1 storage = none) :
    extract_data storage (e :: meta) q = extract_data storage meta q := by
  unfold extract_data
  rw [List.filter_cons]
  by_cases hc : rectIntersects e.2 q
  · rw [if_pos hc, List.flatMap_cons, hmiss]
    exact List.nil_append _
  · rw [if_neg hc]

/-- C8: a candidate chunk that is listed in metadata but whose file is
missing from storage is skipped, and extraction returns exactly the result
it would return had the missing chunk never been a metadata candidate. -/
theorem missing_chunk_skipped (storage : List ((ℚ × ℚ) × List Feature))
    (meta : List ((ℚ × ℚ) × BBox)) (q : BBox) (k : ℚ × ℚ)
    (hmiss : alistGet k storage = none) :
    extract_data storage meta q
      = extract_data storage (meta.filter (fun e => decide (e.1 ≠ k))) q := by
  induction meta with
  | nil => rfl
  | cons e meta ih =>
    rw [List.filter_cons]
    by_cases hek : e.1 = k
    · rw [if_neg (by simp [hek]), extract_data_cons_missing storage e meta q
        (by rw [hek]; exact hmiss), ih]
    · rw [if_pos (by simp [hek])]
      unfold extract_data at ih ⊢
      rw [List.filter_cons, List.filter_cons]
      by_cases hc : rectIntersects e.2 q
      · rw [if_pos hc, if_pos hc, List.flatMap_cons, List.flatMap_cons, ih]
      · rw [if_neg hc, if_neg hc, ih]

/-- Witness for C8: one metadata entry whose chunk file is absent from an
empty storage. -/
theorem missing_chunk_skipped_witness :
    alistGet (0, 0) ([] : List ((ℚ × ℚ) × List Feature)) = none
    ∧ extract_data [] [((0, 0), ⟨0, 0, 1, 1⟩)] ⟨0, 0, 1, 1⟩
        = extract_data []
            ([((0, 0), (⟨0, 0, 1, 1⟩ : BBox))].filter (fun e => decide (e.1 ≠ (0, 0))))
            ⟨0, 0, 1, 1⟩ :=
  ⟨rfl, missing_chunk_skipped [] [((0, 0), ⟨0, 0, 1, 1⟩)] ⟨0, 0, 1, 1⟩ (0, 0) rfl⟩

theorem processChunk_skip_bad {f : Feature} (hf : f.props = none)
    (l1 l2 : List Feature) (q : BBox) :
    processChunk (l1 ++ f :: l2) q = processChunk (l1 ++ l2) q := by
  unfold processChunk
  rw [List.filter_append, List.filter_append, List.filter_cons]
  by_cases hq : featIntersects f q
  · rw [if_pos hq, List.filterMap_append, List.filterMap_append, List.filterMap_cons,
      show buildFeature f = none from by unfold buildFeature; rw [hf]]
  · rw [if_neg hq]

/-- C9: a feature whose string payload fails to decode as JSON is
skipped and excluded from the output, while extraction of every other
feature — including valid features in the same chunk — is unaffected: the
result equals the extraction over the same data with the malformed feature
removed. -/
theorem malformed_payload_feature_skipped (f : Feature) (hf : f.props = none)
    (k : ℚ × ℚ) (l1 l2 : List Feature) (rest : List ((ℚ × ℚ) × List Feature))
    (meta : List ((ℚ × ℚ) × BBox)) (q : BBox) :
    extract_data ((k, l1 ++ f :: l2) :: rest) meta q
      = extract_data ((k, l1 ++ l2) :: rest) meta q := by
  unfold extract_data
  refine flatMap_congr_mem ?_
  intro e he
  dsimp only
  by_cases hek : k = e.1
  · have h1 : alistGet e.1 ((k, l1 ++ f :: l2) :: rest) = some (l1 ++ f :: l2) := by
      simp only [alistGet]
      rw [if_pos hek]
    have h2 : alistGet e.1 ((k, l1 ++ l2) :: rest) = some (l1 ++ l2) := by
      simp only [alistGet]
      rw [if_pos hek]
    rw [h1, h2]
    exact processChunk_skip_bad hf l1 l2 q
  · have h1 : alistGet e.1 ((k, l1 ++ f :: l2) :: rest) = alistGet e.1 rest := by
      simp only [alistGet]
      rw [if_neg hek]
    have h2 : alistGet e.1 ((k, l1 ++ l2) :: rest) = alistGet e.1 rest := by
      simp only [alistGet]
      rw [if_neg hek]
    rw [h1, h2]

/-- Witness for C9: a chunk holding one malformed-payload feature next to a
valid feature. -/
theorem malformed_payload_feature_skipped_witness :
    (Feature.mk [(0, 0)] none).props = none
    ∧ extract_data [((0, 0), [] ++ ⟨[(0, 0)], none⟩ :: [⟨[(0, 0)], some []⟩])]
          [((0, 0), ⟨0, 0, 1, 1⟩)] ⟨0, 0, 1, 1⟩
        = extract_data [((0, 0), [] ++ [⟨[(0, 0)], some []⟩])]
            [((0, 0), ⟨0, 0, 1, 1⟩)] ⟨0, 0, 1, 1⟩ :=
  ⟨rfl, malformed_payload_feature_skipped ⟨[(0, 0)], none⟩ rfl (0, 0) []
    [⟨[(0, 0)], some []⟩] [] [((0, 0), ⟨0, 0, 1, 1⟩)] ⟨0, 0, 1, 1⟩⟩

/-- C10: every extraction output feature's properties dict starts as
`{"type": "Feature"}` with the decoded payload merged on top, so its
`"type"` entry is `"Feature"` unless the decoded payload itself supplies a
`"type"` key, which overrides it. -/
theorem output_type_feature_default (storage : List ((ℚ × ℚ) × List Feature))
    (meta : List ((ℚ × ℚ) × BBox)) (q : BBox) (o : OutFeature)
    (ho : o ∈ extract_data storage meta q) :
    ∃ d, o.properties = ("type", "Feature") :: d
      ∧ (dictGet d "type" = none → dictGet o.properties "type" = some "Feature")
      ∧ ∀ v, dictGet d "type" = some v → dictGet o.properties "type" = some v := by
  obtain ⟨f, -, hbf⟩ := extract_data_mem_src ho
  obtain ⟨d, -, rfl⟩ := buildFeature_some hbf
  have hstep : dictGet (("type", "Feature") :: d) "type"
      = match dictGet d "type" with
        | some v => some v
        | none => if ("type" : String) = "type" then some "Feature" else none := rfl
  refine ⟨d, rfl, ?_, ?_⟩
  · intro hnone
    show dictGet (("type", "Feature") :: d) "type" = some "Feature"
    rw [hstep, hnone, if_pos rfl]
  · intro v hv
    show dictGet (("type", "Feature") :: d) "type" = some v
    rw [hstep, hv]

/-- Witness for C10: one chunk and one valid feature whose decoded payload
is empty. -/
theorem output_type_feature_default_witness :
    (⟨[(0, 0)], [("type", "Feature")]⟩ : OutFeature)
      ∈ extract_data [((0, 0), [⟨[(0, 0)], some []⟩])]
          [((0, 0), ⟨0, 0, 1, 1⟩)] ⟨0, 0, 1, 1⟩
    ∧ ∃ d, ([("type", "Feature")] : List (String × String)) = ("type", "Feature") :: d
      ∧ (dictGet d "type" = none → dictGet [("type", "Feature")] "type" = some "Feature")
      ∧ ∀ v, dictGet d "type" = some v → dictGet [("type", "Feature")] "type" = some v :=
  ⟨by decide, output_type_feature_default [((0, 0), [⟨[(0, 0)], some []⟩])]
      [((0, 0), ⟨0, 0, 1, 1⟩)] ⟨0, 0, 1, 1⟩ ⟨[(0, 0)], [("type", "Feature")]⟩
      (by decide)⟩

/-- C2 (amended): metadata load fails with the not-found error when the
metadata file is absent and the corrupt error when `json.load` rejects the
file; any successfully parsed mapping is returned as-is, with no further
validation of the bound records. -/
theorem load_metadata_cases :
    load_metadata .absent = .error .notFound
    ∧ load_metadata .unparseable = .error .corrupt
    ∧ ∀ m, load_metadata (.parsed m) = .ok m :=
  ⟨rfl, rfl, fun _ => rfl⟩

/-- Counterexample to C2 as stated: a parsed metadata mapping whose value
has inverted bounds (`x_min = 1 > x_max = 0`) is returned as-is by the load
instead of being rejected with the corrupt error. -/
theorem load_metadata_accepts_malformed_bounds :
    load_metadata (.parsed [("c.geojson", ⟨1, 0, 0, 0⟩)])
        = .ok [("c.geojson", ⟨1, 0, 0, 0⟩)]
    ∧ ¬ wellOrdered ⟨1, 0, 0, 0⟩ :=
  ⟨rfl, by decide⟩

end Footprints
